import Mathlib

/-!
Verification of the seriate extension core: the cosine-distance seriation
engine (src/lib/seriation.js), the OpenAI embeddings client
(src/unnamed/part_000), the IndexedDB embedding store (src/lib/db.js) and
the orchestrating background handler (src/unnamed/part_001, handleSeriate).

Numbers are modelled as real numbers; item embeddings are lists of reals.
Stateful pieces (the IndexedDB object store, the in-memory rank object)
are modelled as insertion-ordered association lists, matching the
observable behaviour of an IndexedDB store keyed by messageId and of a
plain JS object.
-/

namespace Seriate

/-- An embedding vector. -/
abbrev Emb := List ℝ

/-! ## src/lib/seriation.js -/

/-- Embedding of cosineDistance (src/lib/seriation.js, lines 13-25).
The JS loop accumulates dot, normA and normB over i smaller than a.length;
for vectors of a common dimension the reads a[i], b[i] are exactly
a.getD i 0, b.getD i 0.  The zero-denominator guard returns 1. -/
noncomputable def cosineDistance (a b : List ℝ) : ℝ :=
  let dot := ∑ i ∈ Finset.range a.length, a.getD i 0 * b.getD i 0
  let normA := ∑ i ∈ Finset.range a.length, a.getD i 0 * a.getD i 0
  let normB := ∑ i ∈ Finset.range a.length, b.getD i 0 * b.getD i 0
  let denom := Real.sqrt normA * Real.sqrt normB
  if denom = 0 then 1 else 1 - dot / denom

/-- Embedding of buildDistanceMatrix (src/lib/seriation.js, lines 33-46).
The JS code zero-fills an n by n array and, for each pair i smaller than j,
computes d = cosineDistance(embeddings[i], embeddings[j]) once and writes it
to both matrix[i][j] and matrix[j][i].  Hence the cell (i, j) with i not
equal to j holds the distance computed with the arguments in (min, max)
order, and the diagonal keeps its initial 0. -/
noncomputable def buildDistanceMatrix (embeddings : List (List ℝ)) : List (List ℝ) :=
  let n := embeddings.length
  (List.range n).map fun i => (List.range n).map fun j =>
    if i = j then 0
    else cosineDistance (embeddings.getD (min i j) []) (embeddings.getD (max i j) [])

/-- The matrix entry read dist[i][j], with the JS out-of-range default
collapsed to 0 (in-range reads, the only ones that occur, are exact). -/
noncomputable def dEntry (e : List (List ℝ)) (i j : ℕ) : ℝ :=
  ((buildDistanceMatrix e).getD i []).getD j 0

/-- The JS comparison dist[current][j] < bestDist inside seriate.  The left
operand none models an out-of-range read (undefined, whose numeric comparison
is always false); the right operand none models the initial Infinity, which
every number is strictly below. -/
noncomputable def jsLt (x best : Option ℝ) : Bool :=
  match x, best with
  | none, _ => false
  | some _, none => true
  | some v, some w => decide (v < w)

/-- One iteration of the inner for-j loop of seriate (src/lib/seriation.js,
lines 74-79): skip visited indices, strictly improve on the best distance so
far.  State is (bestIdx, bestDist); bestIdx none models the JS sentinel -1
and bestDist none models Infinity. -/
noncomputable def selectStep (row : List ℝ) (visited : List ℕ)
    (best : Option ℕ × Option ℝ) (j : ℕ) : Option ℕ × Option ℝ :=
  if j ∉ visited ∧ jsLt (row.get? j) best.2 = true
  then (some j, row.get? j) else best

/-- The full inner scan for j = 0 .. n-1 of seriate. -/
noncomputable def selectNext (row : List ℝ) (visited : List ℕ) (n : ℕ) :
    Option ℕ × Option ℝ :=
  (List.range n).foldl (selectStep row visited) (none, none)

/-- The outer while loop of seriate (src/lib/seriation.js, lines 70-84).
fuel is the number of remaining iterations, n - order.length: each JS
iteration pushes exactly one element onto order.  The none result models the
bestIdx = -1 path, on which the JS code pushes -1 and the following
dist[-1][j] read throws; selectNext_spec below shows that over the reals
this path is never taken. -/
noncomputable def seriateLoop (dist : List (List ℝ)) (n : ℕ) :
    ℕ → ℕ → List ℕ → List ℕ → Option (List ℕ)
  | 0, _, _, order => some order
  | fuel + 1, current, visited, order =>
    match (selectNext (dist.getD current []) visited n).1 with
    | none => none
    | some bestIdx =>
      seriateLoop dist n fuel bestIdx (visited ++ [bestIdx]) (order ++ [bestIdx])

/-- Embedding of seriate (src/lib/seriation.js, lines 56-87): greedy
nearest-neighbour ordering.  n at most 1 short-circuits; otherwise the walk
starts at the fixed anchor 0 and the loop runs n - 1 times. -/
noncomputable def seriate (embeddings : List (List ℝ)) : Option (List ℕ) :=
  let n := embeddings.length
  if n ≤ 1 then some (if n = 1 then [0] else [])
  else seriateLoop (buildDistanceMatrix embeddings) n (n - 1) 0 [0] [0]

/-- Specification wording of one greedy step (spec, section 4.4 step 3):
among unvisited indices the selected one has minimum distance to the last
element of the order so far, ties broken by the smallest index. -/
def IsGreedyPick (d : ℕ → ℕ → ℝ) (n last : ℕ) (visited : List ℕ) (j : ℕ) : Prop :=
  j < n ∧ j ∉ visited ∧
    (∀ k, k < n → k ∉ visited → d last j ≤ d last k) ∧
    (∀ k, k < n → k ∉ visited → d last k = d last j → j ≤ k)

/-! ## src/unnamed/part_000 (OpenAI embeddings client) -/

/-- EMBEDDING_BATCH_SIZE (src/unnamed/part_000, line 6). -/
def EMBEDDING_BATCH_SIZE : ℕ := 100

/-- The batch slicing of fetchEmbeddings (src/unnamed/part_000, lines 19-20):
the JS loop visits i = 0, B, 2B, ... while i is below texts.length and takes
texts.slice(i, i + B); so chunk number k is drop (k * B) then take B, and the
number of chunks is the length divided by B, rounded up. -/
def chunks (texts : List String) : List (List String) :=
  (List.range ((texts.length + EMBEDDING_BATCH_SIZE - 1) / EMBEDDING_BATCH_SIZE)).map
    fun k => (texts.drop (k * EMBEDDING_BATCH_SIZE)).take EMBEDDING_BATCH_SIZE

/-- A provider response payload: the data array of objects with an index and
an embedding field, in whatever order the provider returned them. -/
abbrev ProviderData := List (ℕ × Emb)

/-- The HTTP transport of fetchEmbeddings, abstracted: one external call per
batch; the error case is a non-ok response (the JS throw with the status and
body). -/
abbrev CallFn := List String → Except String ProviderData

/-- The per-batch body of fetchEmbeddings (src/unnamed/part_000, lines 19-44)
iterated over the list of batches: each successful response is sorted by its
index field and its embeddings are appended to the accumulated output; a
failed batch aborts the whole fetch. -/
def fetchBatches (call : CallFn) : List (List String) → Except String (List Emb)
  | [] => .ok []
  | c :: rest =>
    match call c with
    | .error e => .error e
    | .ok data =>
      match fetchBatches call rest with
      | .error e => .error e
      | .ok tail =>
        .ok ((data.mergeSort (fun x y => decide (x.1 ≤ y.1))).map Prod.snd ++ tail)

/-- Embedding of fetchEmbeddings (src/unnamed/part_000, lines 15-47). -/
def fetchEmbeddings (call : CallFn) (texts : List String) : Except String (List Emb) :=
  fetchBatches call (chunks texts)

/-! ## src/lib/db.js (IndexedDB embedding store) and JS object maps

The IndexedDB object store is keyed by messageId; a put overwrites the entry
with the same key and otherwise inserts.  Both the store and the in-memory
maps (the cachedEmbeddings Map, the ranks object) are modelled as
insertion-ordered association lists with that upsert write. -/

/-- JS map/object write m[k] = v, and IndexedDB store.put: overwrite the
entry with key k in place if present, otherwise append. -/
def upsert {α : Type} (m : List (String × α)) (k : String) (v : α) :
    List (String × α) :=
  if m.any (fun p => p.1 = k) then m.map fun p => if p.1 = k then (k, v) else p
  else m ++ [(k, v)]

/-- Key membership test (Map.has / object property test). -/
def hasKey {α : Type} (m : List (String × α)) (k : String) : Bool :=
  m.any (fun p => p.1 = k)

/-- Key lookup (Map.get / object property read): the entry with the key, if
any; keys are unique in every map this model builds, so first match is the
match. -/
def lookupA {α : Type} : List (String × α) → String → Option α
  | [], _ => none
  | p :: m, k => if p.1 = k then some p.2 else lookupA m k

/-- The persisted embedding store. -/
abbrev Store := List (String × Emb)

/-- Embedding of storeEmbeddings (src/lib/db.js, lines 76-87): one put per
entry, in order. -/
def storeEmbeddings (s : Store) (entries : List (String × Emb)) : Store :=
  entries.foldl (fun acc e => upsert acc e.1 e.2) s

/-- Embedding of getEmbeddings (src/lib/db.js, lines 47-70): a cursor walks
the whole store and keeps the entries whose messageId is among the requested
ids; equivalently, the store filtered to the requested key set. -/
def getEmbeddings (s : Store) (ids : List String) : Store :=
  s.filter (fun p => p.1 ∈ ids)

/-! ## src/unnamed/part_001 (background handleSeriate) -/

/-- A folder message, reduced to the data the handler uses: the
headerMessageId and the extracted embeddable text (extractMessageText applied
to the full message). -/
abbrev Msg := String × String

/-- The rank map handed to the column API: the JS ranks object. -/
abbrev RankMap := List (String × ℕ)

/-- The rank-building loop of handleSeriate (src/unnamed/part_001, lines
180-186): for each position of the order, ranks[messageIds[order[position]]]
= position + 1. -/
def buildRanks (ids : List String) (order : List ℕ) : RankMap :=
  order.enum.foldl (fun m pr => upsert m (ids.getD pr.2 "") (pr.1 + 1)) []

/-- The JS local needEmbedding (src/unnamed/part_001, lines 135-137): the
messages whose id is not among the cached embeddings read for this run. -/
def needEmbedding (store : Store) (msgs : List Msg) : List Msg :=
  msgs.filter fun m => ¬ hasKey (getEmbeddings store (msgs.map Prod.fst)) m.1 = true

/-- The JS local entries (src/unnamed/part_001, lines 157-160): one cache
entry per missing message, pairing its id with newEmbeddings[i]; the zip
agrees with the JS index read whenever the provider returned one embedding
per text, which fetchEmbeddings guarantees on success. -/
def runEntries (store : Store) (msgs : List Msg) (newEmbeddings : List Emb) :
    List (String × Emb) :=
  ((needEmbedding store msgs).map Prod.fst).zip newEmbeddings

/-- The JS local embeddingArray (src/unnamed/part_001, line 176): one vector
per message id, read from the in-memory map that merges the cached entries
with the freshly fetched ones. -/
def embeddingArray (store : Store) (msgs : List Msg) (newEmbeddings : List Emb) :
    List Emb :=
  (msgs.map Prod.fst).map fun id =>
    (lookupA (storeEmbeddings (getEmbeddings store (msgs.map Prod.fst))
      (runEntries store msgs newEmbeddings)) id).getD []

/-- Embedding of the store- and provider-relevant core of handleSeriate
(src/unnamed/part_001, lines 94-197), returning the final store next to the
outcome.  Mirrored behaviour: an empty folder is an error before any fetch;
cached embeddings are read first and only the missing messages are sent to
fetchEmbeddings; the freshly fetched entries are persisted only on the
success path, after all batches completed (the JS storeEmbeddings call is
issued once for all entries, fire and forget, line 163); the embedding array
is assembled in message order from the in-memory map; the ranks object is
built from the seriate order. -/
noncomputable def handleSeriate (store : Store) (msgs : List Msg) (call : CallFn) :
    Store × Except String RankMap :=
  if msgs.isEmpty then (store, .error "No messages in the current folder.")
  else
    match fetchEmbeddings call ((needEmbedding store msgs).map Prod.snd) with
    | .error e => (store, .error e)
    | .ok newEmbeddings =>
      match seriate (embeddingArray store msgs newEmbeddings) with
      | none =>
        (storeEmbeddings store (runEntries store msgs newEmbeddings),
          .error "seriation failed")
      | some order =>
        (storeEmbeddings store (runEntries store msgs newEmbeddings),
          .ok (buildRanks (msgs.map Prod.fst) order))

/-! ## Specification-level and scenario definitions -/

/-- The rank the ranks object ends up holding for an id, described the way
the overwrite semantics reads: among the positions of the order whose message
id equals the given id, take the last one and return its position + 1. -/
def lastWrite (ids : List String) (order : List ℕ) (id : String) : Option ℕ :=
  ((order.enum.filter fun pr => ids.getD pr.2 "" = id).getLast?).map fun pr => pr.1 + 1

/-- The embedding assignment used by the C8 witness. -/
def embW : String → Emb := fun _ => []

/-- The C8 witness transport: each batch answers with the indexed embeddings
of its texts in reversed (out-of-input) order. -/
def callW : CallFn := fun c => .ok ((c.map embW).enum.reverse)

/-- C1 scenario: 101 messages with distinct ids, so the fetch needs two
provider batches (100 + 1). -/
def cexMsgs : List Msg := (List.range 101).map fun i => (toString i, toString i)

/-- C1 scenario transport: the full first batch of 100 succeeds, the second
batch (1 text) fails with a rate-limit error. -/
def cexCall : CallFn := fun c =>
  if c.length = EMBEDDING_BATCH_SIZE then .ok (c.enum.map fun p => (p.1, [(1 : ℝ)]))
  else .error "OpenAI API error 429: rate limited"

/-- A transport that is never consulted (scenarios where every id is cached). -/
def unusedCall : CallFn := fun _ => .error "unused"

/-! ## Characterization of the inner selection scan -/

lemma get?_eq_some_getD (row : List ℝ) (m : ℕ) (hm : m < row.length) :
    row.get? m = some (row.getD m 0) := by
  rw [List.get?_eq_getElem?, List.getElem?_eq_getElem hm,
    List.getD_eq_getElem?_getD, List.getElem?_eq_getElem hm]
  rfl

/-- Dichotomy for the inner scan over j = 0 .. m-1: either every index below
m is visited and the state is still the initial sentinel pair, or the state
holds the first minimiser: an unvisited index below m whose distance is
minimal among unvisited indices below m, and which is the smallest index
attaining that minimum. -/
lemma selectNext_good (row : List ℝ) (visited : List ℕ) (m : ℕ) (hm : m ≤ row.length) :
    ((List.range m).foldl (selectStep row visited) (none, none) = (none, none) ∧
      ∀ j, j < m → j ∈ visited) ∨
    (∃ j, (List.range m).foldl (selectStep row visited) (none, none)
        = (some j, some (row.getD j 0)) ∧ j < m ∧ j ∉ visited ∧
      (∀ k, k < m → k ∉ visited → row.getD j 0 ≤ row.getD k 0) ∧
      (∀ k, k < m → k ∉ visited → row.getD k 0 = row.getD j 0 → j ≤ k)) := by
  induction m with
  | zero => exact Or.inl ⟨rfl, by omega⟩
  | succ m ih =>
    have hm' : m ≤ row.length := by omega
    have hrow := get?_eq_some_getD row m (by omega)
    rw [List.range_succ, List.foldl_append, List.foldl_cons, List.foldl_nil]
    rcases ih hm' with ⟨heq, hall⟩ | ⟨j, heq, hj, hjv, hmin, htie⟩
    · rw [heq]
      by_cases hv : m ∈ visited
      · refine Or.inl ⟨by simp [selectStep, hv], ?_⟩
        intro j hj
        rcases Nat.lt_succ_iff_lt_or_eq.1 hj with h | h
        · exact hall j h
        · exact h ▸ hv
      · refine Or.inr ⟨m, ?_, Nat.lt_succ_self m, hv, ?_, ?_⟩
        · unfold selectStep
          rw [hrow, if_pos ⟨hv, rfl⟩]
        · intro k hk hkv
          rcases Nat.lt_succ_iff_lt_or_eq.1 hk with h | h
          · exact absurd (hall k h) hkv
          · rw [h]
        · intro k hk hkv _
          rcases Nat.lt_succ_iff_lt_or_eq.1 hk with h | h
          · exact absurd (hall k h) hkv
          · omega
    · rw [heq]
      by_cases hv : m ∈ visited
      · refine Or.inr ⟨j, ?_, by omega, hjv, ?_, ?_⟩
        · simp [selectStep, hv]
        · intro k hk hkv
          rcases Nat.lt_succ_iff_lt_or_eq.1 hk with h | h
          · exact hmin k h hkv
          · exact absurd (h ▸ hkv) (fun hc => hc hv)
        · intro k hk hkv hkd
          rcases Nat.lt_succ_iff_lt_or_eq.1 hk with h | h
          · exact htie k h hkv hkd
          · exact absurd (h ▸ hkv) (fun hc => hc hv)
      · by_cases hlt : row.getD m 0 < row.getD j 0
        · refine Or.inr ⟨m, ?_, Nat.lt_succ_self m, hv, ?_, ?_⟩
          · unfold selectStep
            rw [hrow, if_pos ⟨hv, decide_eq_true hlt⟩]
          · intro k hk hkv
            rcases Nat.lt_succ_iff_lt_or_eq.1 hk with h | h
            · exact le_of_lt (lt_of_lt_of_le hlt (hmin k h hkv))
            · rw [h]
          · intro k hk hkv hkd
            rcases Nat.lt_succ_iff_lt_or_eq.1 hk with h | h
            · exact absurd hkd (by have := hmin k h hkv; intro hc; linarith)
            · omega
        · refine Or.inr ⟨j, ?_, by omega, hjv, ?_, ?_⟩
          · unfold selectStep
            rw [hrow, if_neg (fun h => absurd (of_decide_eq_true h.2) hlt)]
          · intro k hk hkv
            rcases Nat.lt_succ_iff_lt_or_eq.1 hk with h | h
            · exact hmin k h hkv
            · rw [h]; linarith [not_lt.1 hlt]
          · intro k hk hkv hkd
            rcases Nat.lt_succ_iff_lt_or_eq.1 hk with h | h
            · exact htie k h hkv hkd
            · omega

/-- If some index below n is unvisited (and the row covers n entries), the
scan returns the first minimiser among the unvisited indices. -/
lemma selectNext_spec (row : List ℝ) (visited : List ℕ) (n : ℕ) (hn : n ≤ row.length)
    (hex : ∃ j, j < n ∧ j ∉ visited) :
    ∃ j, (selectNext row visited n).1 = some j ∧ j < n ∧ j ∉ visited ∧
      (∀ k, k < n → k ∉ visited → row.getD j 0 ≤ row.getD k 0) ∧
      (∀ k, k < n → k ∉ visited → row.getD k 0 = row.getD j 0 → j ≤ k) := by
  rcases selectNext_good row visited n hn with ⟨heq, hall⟩ | ⟨j, heq, hj, hjv, hmin, htie⟩
  · rcases hex with ⟨j, hj, hjv⟩
    exact absurd (hall j hj) hjv
  · exact ⟨j, by rw [selectNext, heq], hj, hjv, hmin, htie⟩

/-! ## Shape of the distance matrix and the loop invariant -/

lemma buildDistanceMatrix_eq (e : List (List ℝ)) :
    buildDistanceMatrix e = (List.range e.length).map fun i =>
      (List.range e.length).map fun j =>
        if i = j then 0
        else cosineDistance (e.getD (min i j) []) (e.getD (max i j) []) := rfl

lemma matrix_getD_row (e : List (List ℝ)) (i : ℕ) (hi : i < e.length) :
    (buildDistanceMatrix e).getD i [] = (List.range e.length).map fun j =>
      if i = j then 0 else cosineDistance (e.getD (min i j) []) (e.getD (max i j) []) := by
  rw [buildDistanceMatrix_eq, List.getD_eq_getElem _ _ (by simpa using hi),
    List.getElem_map, List.getElem_range]

lemma matrix_row_length (e : List (List ℝ)) (i : ℕ) (hi : i < e.length) :
    ((buildDistanceMatrix e).getD i []).length = e.length := by
  rw [matrix_getD_row e i hi]
  simp

lemma getD_append_length {α : Type} [Inhabited α] (l₁ l₂ : List α) (a d : α) :
    (l₁ ++ a :: l₂).getD l₁.length d = a := by
  rw [List.getD_eq_getElem _ _ (by simp), List.getElem_append_right (le_refl _)]
  simp

lemma getD_append_left {α : Type} (l₁ l₂ : List α) (i : ℕ) (hi : i < l₁.length) (d : α) :
    (l₁ ++ l₂).getD i d = l₁.getD i d := by
  rw [List.getD_eq_getElem _ _ (by simp; omega), List.getD_eq_getElem _ _ hi,
    List.getElem_append_left]

/-- Invariant proof for the outer loop: starting from a duplicate-free order
of indices below n with fuel = n - order.length, the loop succeeds and
returns an extension of order that has length n, no duplicates, entries below
n, and in which every appended entry is the greedy pick (minimum distance to
the previous entry, ties to the smallest index) among the indices not yet
placed. -/
lemma seriateLoop_spec (e : List (List ℝ)) (n : ℕ) (hn : n = e.length) :
    ∀ (fuel current : ℕ) (visited order : List ℕ),
      order.length + fuel = n →
      (∀ x, x ∈ visited ↔ x ∈ order) →
      order.Nodup →
      (∀ x ∈ order, x < n) →
      ∀ hne : order ≠ [],
      order.getLast hne = current →
    ∃ res, seriateLoop (buildDistanceMatrix e) n fuel current visited order = some res ∧
      res.length = n ∧ res.Nodup ∧ (∀ x ∈ res, x < n) ∧
      (∃ tail, res = order ++ tail) ∧
      ∀ p, order.length ≤ p → p < n →
        IsGreedyPick (dEntry e) n (res.getD (p - 1) 0) (res.take p) (res.getD p 0) := by
  intro fuel
  induction fuel with
  | zero =>
    intro current visited order hfuel hvo hnodup hbound hne hcur
    exact ⟨order, rfl, by omega, hnodup, hbound, ⟨[], by simp⟩,
      fun p hp1 hp2 => absurd hp2 (by omega)⟩
  | succ fuel ih =>
    intro current visited order hfuel hvo hnodup hbound hne hcur
    have hcurn : current < n := hbound current (hcur ▸ List.getLast_mem hne)
    have hex : ∃ j, j < n ∧ j ∉ visited := by
      by_contra hc
      push_neg at hc
      have hsub : List.range n ⊆ order := fun x hx => (hvo x).1 (hc x (List.mem_range.1 hx))
      have hle := ((List.nodup_range n).subperm hsub).length_le
      rw [List.length_range] at hle
      omega
    have hrl : n ≤ ((buildDistanceMatrix e).getD current []).length := by
      rw [matrix_row_length e current (hn ▸ hcurn)]
      omega
    obtain ⟨j, hsel, hjn, hjv, hmin, htie⟩ :=
      selectNext_spec ((buildDistanceMatrix e).getD current []) visited n hrl hex
    have hjo : j ∉ order := fun hmem => hjv ((hvo j).2 hmem)
    have hne' : order ++ [j] ≠ [] := by simp
    obtain ⟨res, hres, hlen, hnd, hbd, ⟨tail, htail⟩, hpick⟩ :=
      ih j (visited ++ [j]) (order ++ [j])
        (by simp only [List.length_append, List.length_singleton]; omega)
        (by intro x; simp [hvo x])
        (by simp [List.nodup_append, hnodup, hjo])
        (by intro x hx; rcases List.mem_append.1 hx with h | h
            · exact hbound x h
            · rw [List.mem_singleton.1 h]; exact hjn)
        hne'
        (List.getLast_concat _)
    have hstep : seriateLoop (buildDistanceMatrix e) n (fuel + 1) current visited order
        = seriateLoop (buildDistanceMatrix e) n fuel j (visited ++ [j]) (order ++ [j]) := by
      simp only [seriateLoop, hsel]
    refine ⟨res, hstep.trans hres, hlen, hnd, hbd, ⟨j :: tail, by rw [htail]; simp⟩, ?_⟩
    intro p hp1 hp2
    rcases Nat.lt_or_ge p (order.length + 1) with hp | hp
    · have hpL : p = order.length := by omega
      have hres' : res = order ++ j :: tail := by rw [htail]; simp
      have h2 : res.getD p 0 = j := by
        rw [hres', hpL]; exact getD_append_length order tail j 0
      have h1 : res.take p = order := by
        rw [hres', hpL, List.take_append_eq_append_take, List.take_length]
        simp
      have hol : 1 ≤ order.length := Nat.one_le_iff_ne_zero.2 (by
        intro hc; exact hne (List.length_eq_zero.1 hc))
      have h3 : res.getD (p - 1) 0 = current := by
        rw [hres', getD_append_left _ _ _ (by omega) _, ← hcur,
          List.getLast_eq_getElem, List.getD_eq_getElem _ _ (by omega)]
        congr 1
        omega
      rw [h1, h2, h3]
      refine ⟨hjn, hjo, ?_, ?_⟩
      · intro k hk hkv
        exact hmin k hk (fun hv => hkv ((hvo k).1 hv))
      · intro k hk hkv hkd
        exact htie k hk (fun hv => hkv ((hvo k).1 hv)) hkd
    · exact hpick p (by simp; omega) hp2

lemma perm_range_of (l : List ℕ) (n : ℕ) (hlen : l.length = n) (hnd : l.Nodup)
    (hbd : ∀ x ∈ l, x < n) : l.Perm (List.range n) :=
  (hnd.subperm (fun x hx => List.mem_range.2 (hbd x hx))).perm_of_length_le
    (by rw [List.length_range, hlen])

/-- Full characterization of seriate: it always succeeds, the result is a
permutation of range n, it is empty for n = 0, starts with the anchor 0 for
n of at least 1, and every consecutive step is the greedy pick. -/
lemma seriate_spec (e : List (List ℝ)) :
    ∃ ord, seriate e = some ord ∧ ord.Perm (List.range e.length) ∧
      (e.length = 0 → ord = []) ∧ (1 ≤ e.length → ord.head? = some 0) ∧
      ∀ p, p + 1 < e.length →
        IsGreedyPick (dEntry e) e.length (ord.getD p 0) (ord.take (p + 1))
          (ord.getD (p + 1) 0) := by
  by_cases h1 : e.length ≤ 1
  · have hs : seriate e = some (if e.length = 1 then [0] else []) := by
      show (if e.length ≤ 1 then some (if e.length = 1 then [0] else [])
        else seriateLoop (buildDistanceMatrix e) e.length (e.length - 1) 0 [0] [0])
        = some (if e.length = 1 then [0] else [])
      rw [if_pos h1]
    rcases Nat.le_one_iff_eq_zero_or_eq_one.1 h1 with h0 | h0
    · refine ⟨[], ?_, by rw [h0]; rfl, fun _ => rfl, fun hc => by omega, fun p hp => by omega⟩
      rw [hs, h0]
      rfl
    · refine ⟨[0], ?_, by rw [h0]; rfl, fun hc => by omega, fun _ => rfl, fun p hp => by omega⟩
      rw [hs, h0]
      rfl
  · obtain ⟨res, hres, hlen, hnd, hbd, ⟨tail, htail⟩, hpick⟩ :=
      seriateLoop_spec e e.length rfl (e.length - 1) 0 [0] [0]
        (by simp; omega) (fun x => Iff.rfl) (by simp) (by simp; omega) (by simp) rfl
    have hs : seriate e = some res := by
      show (if e.length ≤ 1 then some (if e.length = 1 then [0] else [])
        else seriateLoop (buildDistanceMatrix e) e.length (e.length - 1) 0 [0] [0])
        = some res
      rw [if_neg h1]
      exact hres
    refine ⟨res, hs, perm_range_of res e.length hlen hnd hbd,
      fun hc => by omega, fun _ => by rw [htail]; rfl, ?_⟩
    intro p hp
    have := hpick (p + 1) (by simp) hp
    simpa using this

/-- C2: for every input sequence of embedding vectors, seriate succeeds and
returns an ordering that is a permutation of the index range 0 .. n-1, where
n is the number of input vectors; in particular it has exactly n entries and
every index appears exactly once. -/
theorem C2_seriate_permutation (e : List (List ℝ)) :
    ∃ ord, seriate e = some ord ∧ ord.Perm (List.range e.length) := by
  obtain ⟨ord, h1, h2, -, -, -⟩ := seriate_spec e
  exact ⟨ord, h1, h2⟩

/-- C3: on at least two vectors, the ordering starts at the fixed anchor
index 0, and each subsequent entry is the unvisited index with minimum
distance to the last element of the order so far, ties broken by the
smallest index (the first minimum found by the ascending scan). -/
theorem C3_seriate_greedy (e : List (List ℝ)) (h : 2 ≤ e.length) :
    ∃ ord, seriate e = some ord ∧ ord.head? = some 0 ∧
      ∀ p, p + 1 < e.length →
        IsGreedyPick (dEntry e) e.length (ord.getD p 0) (ord.take (p + 1))
          (ord.getD (p + 1) 0) := by
  obtain ⟨ord, h1, -, -, hh, hg⟩ := seriate_spec e
  exact ⟨ord, h1, hh (by omega), hg⟩

/-- Witness for C3 at the concrete two-vector input [[1], [0]]. -/
theorem C3_witness :
    ∃ ord, seriate [[(1 : ℝ)], [0]] = some ord ∧ ord.head? = some 0 ∧
      ∀ p, p + 1 < ([[(1 : ℝ)], [0]] : List (List ℝ)).length →
        IsGreedyPick (dEntry [[(1 : ℝ)], [0]]) ([[(1 : ℝ)], [0]] : List (List ℝ)).length
          (ord.getD p 0) (ord.take (p + 1)) (ord.getD (p + 1) 0) :=
  C3_seriate_greedy [[(1 : ℝ)], [0]] (by rfl)

/-- C4: seriate is deterministic: two runs on bit-identical embedding input
produce identical orderings, with no dependence on anything but the input. -/
theorem C4_seriate_deterministic (v₁ v₂ : List (List ℝ)) (h : v₁ = v₂) :
    seriate v₁ = seriate v₂ := by
  rw [h]

/-- Witness for C4 at a concrete input. -/
theorem C4_witness : seriate [[(1 : ℝ)], [0]] = seriate [[(1 : ℝ)], [0]] :=
  C4_seriate_deterministic [[(1 : ℝ)], [0]] [[(1 : ℝ)], [0]] rfl

/-! ## Numerical facts about cosineDistance and the distance matrix -/

lemma cosineDistance_eq (a b : List ℝ) :
    cosineDistance a b =
      if Real.sqrt (∑ i ∈ Finset.range a.length, a.getD i 0 * a.getD i 0) *
          Real.sqrt (∑ i ∈ Finset.range a.length, b.getD i 0 * b.getD i 0) = 0
      then 1
      else 1 - (∑ i ∈ Finset.range a.length, a.getD i 0 * b.getD i 0) /
        (Real.sqrt (∑ i ∈ Finset.range a.length, a.getD i 0 * a.getD i 0) *
         Real.sqrt (∑ i ∈ Finset.range a.length, b.getD i 0 * b.getD i 0)) := rfl

lemma sum_mul_self_nonneg (a : List ℝ) (m : ℕ) :
    0 ≤ ∑ i ∈ Finset.range m, a.getD i 0 * a.getD i 0 :=
  Finset.sum_nonneg fun _ _ => mul_self_nonneg _

/-- C5: the cosine distance of two vectors of a common dimension always lies
in [0, 2], and whenever either vector has zero norm (in particular for a zero
vector) the result is exactly the number 1 (the NaN-avoiding guard value). -/
theorem C5_cosineDistance_range (a b : List ℝ) (hab : a.length = b.length) :
    0 ≤ cosineDistance a b ∧ cosineDistance a b ≤ 2 ∧
      (((∑ i ∈ Finset.range a.length, a.getD i 0 * a.getD i 0) = 0 ∨
        (∑ i ∈ Finset.range b.length, b.getD i 0 * b.getD i 0) = 0) →
        cosineDistance a b = 1) := by
  rw [← hab]
  set A := ∑ i ∈ Finset.range a.length, a.getD i 0 * a.getD i 0 with hA
  set B := ∑ i ∈ Finset.range a.length, b.getD i 0 * b.getD i 0 with hB
  set D := ∑ i ∈ Finset.range a.length, a.getD i 0 * b.getD i 0 with hD
  have hA0 : 0 ≤ A := sum_mul_self_nonneg a _
  have hB0 : 0 ≤ B := sum_mul_self_nonneg b _
  have hcd : cosineDistance a b =
      if Real.sqrt A * Real.sqrt B = 0 then 1
      else 1 - D / (Real.sqrt A * Real.sqrt B) := cosineDistance_eq a b
  by_cases hden : Real.sqrt A * Real.sqrt B = 0
  · rw [hcd, if_pos hden]
    exact ⟨by norm_num, by norm_num, fun _ => rfl⟩
  · rw [hcd, if_neg hden]
    have hdpos : 0 < Real.sqrt A * Real.sqrt B :=
      lt_of_le_of_ne (mul_nonneg (Real.sqrt_nonneg _) (Real.sqrt_nonneg _)) (Ne.symm hden)
    have cs := Finset.sum_mul_sq_le_sq_mul_sq (Finset.range a.length)
      (fun i => a.getD i 0) (fun i => b.getD i 0)
    simp only [pow_two] at cs
    have habs : |D| ≤ Real.sqrt A * Real.sqrt B := by
      rw [← Real.sqrt_mul_self_eq_abs, ← Real.sqrt_mul hA0]
      exact Real.sqrt_le_sqrt (by rw [hA, hB, hD]; exact cs)
    obtain ⟨hDl, hDu⟩ := abs_le.1 habs
    have h1 : D / (Real.sqrt A * Real.sqrt B) ≤ 1 := (div_le_one hdpos).2 hDu
    have h2 : (-1 : ℝ) ≤ D / (Real.sqrt A * Real.sqrt B) :=
      (le_div_iff₀ hdpos).2 (by linarith)
    refine ⟨by linarith, by linarith, ?_⟩
    intro hz
    exfalso
    apply hden
    rcases hz with hz | hz
    · rw [hz, Real.sqrt_zero, zero_mul]
    · rw [hz, Real.sqrt_zero, mul_zero]

/-- Witness for C5 at the concrete pair [1, 0] and [0, 1]. -/
theorem C5_witness :
    ([(1 : ℝ), 0] : List ℝ).length = ([(0 : ℝ), 1] : List ℝ).length ∧
      (0 ≤ cosineDistance [(1 : ℝ), 0] [(0 : ℝ), 1] ∧
        cosineDistance [(1 : ℝ), 0] [(0 : ℝ), 1] ≤ 2 ∧
        (((∑ i ∈ Finset.range ([(1 : ℝ), 0] : List ℝ).length,
            ([(1 : ℝ), 0] : List ℝ).getD i 0 * ([(1 : ℝ), 0] : List ℝ).getD i 0) = 0 ∨
          (∑ i ∈ Finset.range ([(0 : ℝ), 1] : List ℝ).length,
            ([(0 : ℝ), 1] : List ℝ).getD i 0 * ([(0 : ℝ), 1] : List ℝ).getD i 0) = 0) →
          cosineDistance [(1 : ℝ), 0] [(0 : ℝ), 1] = 1)) :=
  ⟨rfl, C5_cosineDistance_range [(1 : ℝ), 0] [(0 : ℝ), 1] rfl⟩

/-- C6: the cosine distance of a nonzero vector to itself is exactly 0. -/
theorem C6_cosineDistance_self (a : List ℝ) (h : ∃ x ∈ a, x ≠ 0) :
    cosineDistance a a = 0 := by
  set A := ∑ i ∈ Finset.range a.length, a.getD i 0 * a.getD i 0 with hA
  have hA0 : 0 ≤ A := sum_mul_self_nonneg a _
  have hApos : 0 < A := by
    obtain ⟨x, hx, hx0⟩ := h
    obtain ⟨i, hi, hxi⟩ := List.mem_iff_getElem.1 hx
    refine Finset.sum_pos' (fun k _ => mul_self_nonneg _) ⟨i, Finset.mem_range.2 hi, ?_⟩
    rw [List.getD_eq_getElem _ _ hi, hxi]
    exact mul_self_pos.2 hx0
  have hcd : cosineDistance a a =
      if Real.sqrt A * Real.sqrt A = 0 then 1
      else 1 - A / (Real.sqrt A * Real.sqrt A) := cosineDistance_eq a a
  rw [hcd, Real.mul_self_sqrt hA0, if_neg (ne_of_gt hApos), div_self (ne_of_gt hApos)]
  ring

/-- Witness for C6 at the concrete nonzero vector [1]. -/
theorem C6_witness : cosineDistance [(1 : ℝ)] [(1 : ℝ)] = 0 :=
  C6_cosineDistance_self [(1 : ℝ)] ⟨1, by simp, one_ne_zero⟩

lemma matrix_entry_eq (e : List (List ℝ)) (i j : ℕ) (hi : i < e.length)
    (hj : j < e.length) :
    ((buildDistanceMatrix e).get? i).bind (fun r => r.get? j)
      = some (if i = j then 0
          else cosineDistance (e.getD (min i j) []) (e.getD (max i j) [])) := by
  rw [buildDistanceMatrix_eq]
  rw [List.get?_eq_getElem?, List.getElem?_eq_getElem (by simpa using hi)]
  simp only [List.getElem_map, List.getElem_range, Option.some_bind]
  rw [List.get?_eq_getElem?, List.getElem?_eq_getElem (by simpa using hj)]
  simp

/-- C7: the distance matrix is symmetric and its diagonal is exactly zero:
for all in-range indices i and j, the (i, j) and (j, i) cells hold the same
value, and the (i, i) cell holds 0. -/
theorem C7_matrix_symmetric (e : List (List ℝ)) (i j : ℕ) (hi : i < e.length)
    (hj : j < e.length) :
    ((buildDistanceMatrix e).get? i).bind (fun r => r.get? j)
      = ((buildDistanceMatrix e).get? j).bind (fun r => r.get? i) ∧
    ((buildDistanceMatrix e).get? i).bind (fun r => r.get? i) = some 0 := by
  constructor
  · rw [matrix_entry_eq e i j hi hj, matrix_entry_eq e j i hj hi]
    by_cases hij : i = j
    · rw [hij]
    · rw [if_neg hij, if_neg (Ne.symm hij), min_comm, max_comm]
  · rw [matrix_entry_eq e i i hi hi, if_pos rfl]

/-- Witness for C7 at the concrete input [[1], [2]] with indices 0 and 1. -/
theorem C7_witness :
    (((buildDistanceMatrix [[(1 : ℝ)], [2]]).get? 0).bind (fun r => r.get? 1)
      = ((buildDistanceMatrix [[(1 : ℝ)], [2]]).get? 1).bind (fun r => r.get? 0) ∧
    ((buildDistanceMatrix [[(1 : ℝ)], [2]]).get? 0).bind (fun r => r.get? 0) = some 0) :=
  C7_matrix_symmetric [[(1 : ℝ)], [2]] 0 1 (by decide) (by decide)

/-! ## Provider batching (C8) -/

lemma chunks_le (texts : List String) :
    ∀ c ∈ chunks texts, c.length ≤ EMBEDDING_BATCH_SIZE := by
  intro c hc
  obtain ⟨k, -, hk⟩ := List.mem_map.1 hc
  rw [← hk]
  exact (List.length_take_le _ _).trans (le_refl _)

lemma flatten_chunks_aux (l : List String) (m : ℕ) :
    ((List.range m).map fun k =>
      (l.drop (k * EMBEDDING_BATCH_SIZE)).take EMBEDDING_BATCH_SIZE).flatten
      = l.take (m * EMBEDDING_BATCH_SIZE) := by
  induction m with
  | zero => simp
  | succ m ih =>
    rw [List.range_succ, List.map_append, List.flatten_append, ih]
    simp only [List.map_cons, List.map_nil, List.flatten_cons, List.flatten_nil,
      List.append_nil]
    rw [Nat.succ_mul, List.take_add]

lemma chunks_flatten (texts : List String) : (chunks texts).flatten = texts := by
  rw [chunks, flatten_chunks_aux]
  apply List.take_of_length_le
  have hB : EMBEDDING_BATCH_SIZE = 100 := rfl
  rw [hB]
  omega

lemma mergeSort_enum_of_perm (vals : List Emb) (l : ProviderData)
    (hperm : l.Perm vals.enum) :
    l.mergeSort (fun x y => decide (x.1 ≤ y.1)) = vals.enum := by
  have hperm2 : (l.mergeSort (fun x y => decide (x.1 ≤ y.1))).Perm vals.enum :=
    (List.mergeSort_perm l _).trans hperm
  have hsorted0 := @List.sorted_mergeSort (ℕ × Emb) (fun x y => decide (x.1 ≤ y.1))
    (fun a b c h1 h2 => by
      rw [decide_eq_true_eq] at *
      omega)
    (fun a b => by
      rcases Nat.le_total a.1 b.1 with h | h <;> simp [h])
    l
  have hsorted : List.Pairwise (fun a b : ℕ × Emb => a.1 ≤ b.1)
      (l.mergeSort (fun x y => decide (x.1 ≤ y.1))) :=
    hsorted0.imp (fun h => of_decide_eq_true h)
  have hnodup : (List.map Prod.fst (l.mergeSort (fun x y => decide (x.1 ≤ y.1)))).Nodup := by
    rw [List.Perm.nodup_iff (hperm2.map Prod.fst)]
    rw [List.enum_map_fst]
    exact List.nodup_range _
  have hne : List.Pairwise (fun a b : ℕ × Emb => a.1 ≠ b.1)
      (l.mergeSort (fun x y => decide (x.1 ≤ y.1))) := List.pairwise_map.1 hnodup
  have hlt : List.Pairwise (fun a b : ℕ × Emb => a.1 < b.1)
      (l.mergeSort (fun x y => decide (x.1 ≤ y.1))) :=
    (hsorted.and hne).imp (fun h => lt_of_le_of_ne h.1 h.2)
  have htgt : List.Pairwise (fun a b : ℕ × Emb => a.1 < b.1) vals.enum := by
    apply List.pairwise_map.1
    rw [List.enum_map_fst]
    exact List.pairwise_lt_range _
  haveI : IsAntisymm (ℕ × Emb) (fun a b => a.1 < b.1) :=
    ⟨fun a b h1 h2 => (Nat.lt_asymm h1 h2).elim⟩
  exact List.eq_of_perm_of_sorted hperm2 hlt htgt

lemma fetchBatches_ok (call : CallFn) (emb : String → Emb)
    (hcall : ∀ c, ∃ l, call c = .ok l ∧ l.Perm ((c.map emb).enum)) :
    ∀ cs, fetchBatches call cs = .ok ((cs.map (fun c => c.map emb)).flatten) := by
  intro cs
  induction cs with
  | nil => rfl
  | cons c rest ih =>
    obtain ⟨l, hl, hperm⟩ := hcall c
    simp only [fetchBatches, hl, ih]
    rw [mergeSort_enum_of_perm (c.map emb) l hperm, List.enum_map_snd]
    simp

/-- C8: fetchEmbeddings splits its input texts into consecutive groups of at
most 100 (one external call per group), and as long as each call returns the
indexed embeddings of its batch in any order, the per-batch sort by index
reassembles them so that the overall result is one embedding per input text
in exactly the input order. -/
theorem C8_provider_batching (call : CallFn) (texts : List String) (emb : String → Emb)
    (hcall : ∀ c, ∃ l, call c = .ok l ∧ l.Perm ((c.map emb).enum)) :
    (∀ c ∈ chunks texts, c.length ≤ EMBEDDING_BATCH_SIZE) ∧
    (chunks texts).flatten = texts ∧
    fetchEmbeddings call texts = .ok (texts.map emb) := by
  refine ⟨chunks_le texts, chunks_flatten texts, ?_⟩
  rw [fetchEmbeddings, fetchBatches_ok call emb hcall (chunks texts)]
  congr 1
  rw [← List.map_flatten, chunks_flatten]

/-- Witness for C8 at the concrete input ["a", "b"] with a transport that
returns every batch reversed. -/
theorem C8_witness :
    (∀ c ∈ chunks ["a", "b"], c.length ≤ EMBEDDING_BATCH_SIZE) ∧
    (chunks ["a", "b"]).flatten = ["a", "b"] ∧
    fetchEmbeddings callW ["a", "b"] = .ok (["a", "b"].map embW) :=
  C8_provider_batching callW ["a", "b"] embW
    (fun c => ⟨((c.map embW).enum.reverse), rfl, List.reverse_perm _⟩)

/-! ## Association-list (JS object / IndexedDB) lemmas -/

lemma lookupA_map_overwrite {α : Type} (m : List (String × α)) (k : String) (v : α)
    (hm : m.any (fun p => p.1 = k) = true) :
    lookupA (m.map fun p => if p.1 = k then (k, v) else p) k = some v := by
  induction m with
  | nil => simp at hm
  | cons p m ih =>
    by_cases hp : p.1 = k
    · simp [lookupA, hp]
    · simp only [List.any_cons, Bool.or_eq_true, decide_eq_true_eq] at hm
      rcases hm with h | h
      · exact absurd h hp
      · simp [lookupA, hp, ih h]

lemma lookupA_append_single {α : Type} (m : List (String × α)) (k : String) (v : α)
    (hm : m.any (fun p => p.1 = k) = false) :
    lookupA (m ++ [(k, v)]) k = some v := by
  induction m with
  | nil => simp [lookupA]
  | cons p m ih =>
    simp only [List.any_cons, Bool.or_eq_false_iff, decide_eq_false_iff_not] at hm
    simp only [List.cons_append, lookupA, if_neg hm.1]
    exact ih hm.2

lemma lookupA_upsert_self {α : Type} (m : List (String × α)) (k : String) (v : α) :
    lookupA (upsert m k v) k = some v := by
  unfold upsert
  by_cases hm : m.any (fun p => p.1 = k) = true
  · rw [if_pos hm]
    exact lookupA_map_overwrite m k v hm
  · rw [if_neg hm]
    exact lookupA_append_single m k v (Bool.not_eq_true _ ▸ hm)

lemma lookupA_map_overwrite_ne {α : Type} (m : List (String × α)) (k k' : String)
    (v : α) (h : k' ≠ k) :
    lookupA (m.map fun p => if p.1 = k then (k, v) else p) k' = lookupA m k' := by
  induction m with
  | nil => rfl
  | cons p m ih =>
    by_cases hp : p.1 = k
    · simp [lookupA, hp, Ne.symm h, ih]
    · by_cases hp' : p.1 = k'
      · simp [lookupA, hp, hp', h]
      · simp [lookupA, hp, hp', ih]

lemma lookupA_append_single_ne {α : Type} (m : List (String × α)) (k k' : String)
    (v : α) (h : k' ≠ k) :
    lookupA (m ++ [(k, v)]) k' = lookupA m k' := by
  induction m with
  | nil => simp [lookupA, Ne.symm h]
  | cons p m ih =>
    simp only [List.cons_append, lookupA]
    by_cases hp' : p.1 = k'
    · rw [if_pos hp', if_pos hp']
    · rw [if_neg hp', if_neg hp']
      exact ih

lemma lookupA_upsert_ne {α : Type} (m : List (String × α)) (k k' : String) (v : α)
    (h : k' ≠ k) : lookupA (upsert m k v) k' = lookupA m k' := by
  unfold upsert
  split
  · exact lookupA_map_overwrite_ne m k k' v h
  · exact lookupA_append_single_ne m k k' v h

lemma keys_upsert {α : Type} (m : List (String × α)) (k : String) (v : α) :
    (upsert m k v).map Prod.fst =
      if m.any (fun p => p.1 = k) = true then m.map Prod.fst
      else m.map Prod.fst ++ [k] := by
  unfold upsert
  split
  · rw [List.map_map]
    apply List.map_congr_left
    intro p hp
    by_cases h : p.1 = k
    · simp [Function.comp, h]
    · simp [Function.comp, h]
  · simp

lemma mem_keys_upsert {α : Type} (m : List (String × α)) (k x : String) (v : α)
    (hx : x ∈ (upsert m k v).map Prod.fst) : x ∈ m.map Prod.fst ∨ x = k := by
  rw [keys_upsert] at hx
  split at hx
  · exact Or.inl hx
  · rcases List.mem_append.1 hx with h | h
    · exact Or.inl h
    · exact Or.inr (List.mem_singleton.1 h)

lemma keys_upsert_nodup {α : Type} (m : List (String × α)) (k : String) (v : α)
    (h : (m.map Prod.fst).Nodup) : ((upsert m k v).map Prod.fst).Nodup := by
  rw [keys_upsert]
  split
  · exact h
  · rename_i hany
    have hk : k ∉ m.map Prod.fst := by
      intro hc
      obtain ⟨p, hp, hpk⟩ := List.mem_map.1 hc
      exact hany (List.any_eq_true.2 ⟨p, hp, by simp [hpk]⟩)
    simp [List.nodup_append, h, hk]

lemma keys_foldl_nodup {α : Type} (writes : List (String × α)) (acc : List (String × α))
    (h : (acc.map Prod.fst).Nodup) :
    ((writes.foldl (fun a e => upsert a e.1 e.2) acc).map Prod.fst).Nodup := by
  induction writes generalizing acc with
  | nil => exact h
  | cons w ws ih => exact ih _ (keys_upsert_nodup acc w.1 w.2 h)

lemma mem_keys_foldl {α : Type} (writes : List (String × α)) (acc : List (String × α))
    (x : String)
    (hx : x ∈ (writes.foldl (fun a e => upsert a e.1 e.2) acc).map Prod.fst) :
    x ∈ acc.map Prod.fst ∨ x ∈ writes.map Prod.fst := by
  induction writes generalizing acc with
  | nil => exact Or.inl hx
  | cons w ws ih =>
    rcases ih (upsert acc w.1 w.2) hx with h | h
    · rcases mem_keys_upsert acc w.1 x w.2 h with h' | h'
      · exact Or.inl h'
      · exact Or.inr (by simp [h'])
    · exact Or.inr (by simp [h])

lemma foldl_upsert_fresh {α : Type} (writes : List (String × α)) :
    ∀ acc : List (String × α),
      (∀ w ∈ writes, w.1 ∉ acc.map Prod.fst) →
      (writes.map Prod.fst).Nodup →
      writes.foldl (fun a e => upsert a e.1 e.2) acc = acc ++ writes := by
  induction writes with
  | nil => intro acc _ _; simp
  | cons w ws ih =>
    intro acc h1 h2
    have hw : ¬ acc.any (fun p => p.1 = w.1) = true := by
      intro hc
      obtain ⟨p, hp, hpk⟩ := List.any_eq_true.1 hc
      exact h1 w (List.mem_cons_self w ws)
        (List.mem_map.2 ⟨p, hp, of_decide_eq_true hpk⟩)
    have hup : upsert acc w.1 w.2 = acc ++ [w] := by
      unfold upsert
      rw [if_neg hw]
    rw [List.foldl_cons, hup, ih (acc ++ [w]) ?_ (List.Nodup.of_cons h2)]
    · simp
    · intro v hv hvmem
      rcases List.mem_map.1 hvmem with ⟨p, hp, hpk⟩
      rcases List.mem_append.1 hp with hmem | hmem
      · exact h1 v (List.mem_cons_of_mem w hv) (List.mem_map.2 ⟨p, hmem, hpk⟩)
      · rw [List.mem_singleton.1 hmem] at hpk
        have : w.1 ∈ ws.map Prod.fst := hpk ▸ List.mem_map.2 ⟨v, hv, rfl⟩
        exact (List.nodup_cons.1 h2).1 this

lemma lookupA_foldl_upsert {α : Type} (writes : List (String × α)) :
    ∀ acc : List (String × α), ∀ k : String,
      lookupA (writes.foldl (fun a e => upsert a e.1 e.2) acc) k =
        match (writes.filter (fun e => e.1 = k)).getLast? with
        | some e => some e.2
        | none => lookupA acc k := by
  induction writes with
  | nil => intro acc k; rfl
  | cons w ws ih =>
    intro acc k
    rw [List.foldl_cons, ih (upsert acc w.1 w.2) k]
    by_cases hw : w.1 = k
    · rw [List.filter_cons_of_pos (by simp [hw])]
      cases hfl : (ws.filter (fun e => e.1 = k)).getLast? with
      | some e =>
        have hne : ws.filter (fun e => e.1 = k) ≠ [] := by
          intro hc
          rw [hc] at hfl
          exact Option.noConfusion hfl
        obtain ⟨a, l', hl'⟩ := List.exists_cons_of_ne_nil hne
        rw [hl']
        rw [hl'] at hfl
        rw [List.getLast?_cons_cons, hfl]
      | none =>
        have hnil : ws.filter (fun e => e.1 = k) = [] := by
          cases hc : ws.filter (fun e => e.1 = k) with
          | nil => rfl
          | cons a l' =>
            rw [hc] at hfl
            cases l' with
            | nil => exact Option.noConfusion hfl
            | cons b l'' =>
              rw [List.getLast?_cons_cons] at hfl
              have hs : (b :: l'').getLast?.isSome = true := by
                rw [List.getLast?_isSome]
                exact List.cons_ne_nil b l''
              rw [hfl] at hs
              exact Bool.noConfusion hs
        rw [hnil]
        show lookupA (upsert acc w.1 w.2) k = some w.2
        rw [← hw]
        exact lookupA_upsert_self acc w.1 w.2
    · rw [List.filter_cons_of_neg (by simp [hw])]
      cases hfl : (ws.filter (fun e => e.1 = k)).getLast? with
      | some e => rfl
      | none => exact lookupA_upsert_ne acc w.1 k w.2 (fun hc => hw hc.symm)

/-! ## Rank-map lemmas -/

lemma buildRanks_eq_foldl (ids : List String) (order : List ℕ) :
    buildRanks ids order =
      (order.enum.map fun pr => (ids.getD pr.2 "", pr.1 + 1)).foldl
        (fun a e => upsert a e.1 e.2) [] := by
  rw [buildRanks, List.foldl_map]

lemma writes_keys (ids : List String) (order : List ℕ) :
    (order.enum.map fun pr => (ids.getD pr.2 "", pr.1 + 1)).map Prod.fst
      = order.map (fun x => ids.getD x "") := by
  rw [List.map_map]
  have h : (Prod.fst ∘ fun pr : ℕ × ℕ => (ids.getD pr.2 "", pr.1 + 1))
      = (fun x => ids.getD x "") ∘ Prod.snd := rfl
  rw [h, ← List.map_map, List.enum_map_snd]

lemma writes_values (ids : List String) (order : List ℕ) :
    (order.enum.map fun pr => (ids.getD pr.2 "", pr.1 + 1)).map Prod.snd
      = (List.range order.length).map (· + 1) := by
  rw [List.map_map]
  have h : (Prod.snd ∘ fun pr : ℕ × ℕ => (ids.getD pr.2 "", pr.1 + 1))
      = (fun x => x + 1) ∘ Prod.fst := rfl
  rw [h, ← List.map_map, List.enum_map_fst]

lemma map_getD_range_self (ids : List String) :
    (List.range ids.length).map (fun x => ids.getD x "") = ids := by
  apply List.ext_getElem
  · simp
  · intro i h1 h2
    rw [List.getElem_map, List.getElem_range]
    exact List.getD_eq_getElem ids "" h2

lemma writes_keys_nodup (ids : List String) (order : List ℕ) (hnd : ids.Nodup)
    (hond : order.Nodup) (hbd : ∀ x ∈ order, x < ids.length) :
    (order.map (fun x => ids.getD x "")).Nodup := by
  refine List.Nodup.map_on ?_ hond
  intro x hx y hy hxy
  have hx' : x < ids.length := hbd x hx
  have hy' : y < ids.length := hbd y hy
  rw [List.getD_eq_getElem _ _ hx', List.getD_eq_getElem _ _ hy'] at hxy
  exact (List.Nodup.getElem_inj_iff hnd).1 hxy

/-- Under duplicate-free ids, every rank write hits a fresh key, so the rank
object is exactly the written list of pairs. -/
lemma buildRanks_of_nodup (ids : List String) (order : List ℕ) (hnd : ids.Nodup)
    (hond : order.Nodup) (hbd : ∀ x ∈ order, x < ids.length) :
    buildRanks ids order = order.enum.map fun pr => (ids.getD pr.2 "", pr.1 + 1) := by
  rw [buildRanks_eq_foldl]
  rw [foldl_upsert_fresh _ [] (by simp)
    (by rw [writes_keys]; exact writes_keys_nodup ids order hnd hond hbd)]
  simp

lemma buildRanks_spec_nodup (ids : List String) (order : List ℕ)
    (hperm : order.Perm (List.range ids.length)) (hnd : ids.Nodup) :
    ((buildRanks ids order).map Prod.fst).Perm ids ∧
    (buildRanks ids order).map Prod.snd = (List.range order.length).map (· + 1) := by
  have hond : order.Nodup := hperm.nodup_iff.2 (List.nodup_range _)
  have hbd : ∀ x ∈ order, x < ids.length := fun x hx =>
    List.mem_range.1 (hperm.subset hx)
  rw [buildRanks_of_nodup ids order hnd hond hbd]
  refine ⟨?_, writes_values ids order⟩
  rw [writes_keys]
  have hp := hperm.map (fun x => ids.getD x "")
  rw [map_getD_range_self] at hp
  exact hp

/-! ## Extraction lemmas for handleSeriate -/

lemma handleSeriate_ok (store : Store) (msgs : List Msg) (call : CallFn)
    (st : Store) (ranks : RankMap)
    (h : handleSeriate store msgs call = (st, .ok ranks)) :
    ∃ order, order.Perm (List.range msgs.length) ∧
      ranks = buildRanks (msgs.map Prod.fst) order := by
  unfold handleSeriate at h
  by_cases hemp : msgs.isEmpty = true
  · rw [if_pos hemp] at h
    exact absurd (congrArg Prod.snd h) (by simp)
  · rw [if_neg hemp] at h
    cases hfetch : fetchEmbeddings call ((needEmbedding store msgs).map Prod.snd) with
    | error e =>
      rw [hfetch] at h
      exact absurd (congrArg Prod.snd h) (by simp)
    | ok newEmb =>
      rw [hfetch] at h
      dsimp only at h
      obtain ⟨ord, hord, hperm, -, -, -⟩ := seriate_spec (embeddingArray store msgs newEmb)
      rw [hord] at h
      dsimp only at h
      have hr : ranks = buildRanks (msgs.map Prod.fst) ord := by
        have hsnd := congrArg Prod.snd h
        dsimp only at hsnd
        exact (Except.ok.inj hsnd).symm
      refine ⟨ord, ?_, hr⟩
      have hlen : (embeddingArray store msgs newEmb).length = msgs.length := by
        rw [embeddingArray, List.length_map, List.length_map]
      rw [hlen] at hperm
      exact hperm

lemma handleSeriate_error_store (store : Store) (msgs : List Msg) (call : CallFn)
    (e : String) (h : (handleSeriate store msgs call).2 = .error e) :
    (handleSeriate store msgs call).1 = store := by
  unfold handleSeriate at h ⊢
  by_cases hemp : msgs.isEmpty = true
  · rw [if_pos hemp]
  · rw [if_neg hemp] at h ⊢
    cases hfetch : fetchEmbeddings call ((needEmbedding store msgs).map Prod.snd) with
    | error e' => rfl
    | ok newEmb =>
      rw [hfetch] at h
      dsimp only at h
      obtain ⟨ord, hord, -, -, -, -⟩ := seriate_spec (embeddingArray store msgs newEmb)
      rw [hord] at h
      simp at h

/-! ## Claims about the rank map (C9, C10) and persistence (C1) -/

/-- C9 (amended with the distinct-ids hypothesis that C10 shows necessary):
for a run over n messages with pairwise distinct ids, the produced rank map
contains exactly those ids as keys, and its values are exactly a permutation
of the contiguous range 1 .. n (hence pairwise distinct). -/
theorem C9_rank_map (store : Store) (msgs : List Msg) (call : CallFn)
    (st : Store) (ranks : RankMap)
    (h : handleSeriate store msgs call = (st, .ok ranks))
    (hnd : (msgs.map Prod.fst).Nodup) :
    (ranks.map Prod.fst).Perm (msgs.map Prod.fst) ∧
    (ranks.map Prod.snd).Perm ((List.range msgs.length).map (· + 1)) := by
  obtain ⟨order, hperm, hr⟩ := handleSeriate_ok store msgs call st ranks h
  have hperm' : order.Perm (List.range (msgs.map Prod.fst).length) := by
    rw [List.length_map]
    exact hperm
  obtain ⟨h1, h2⟩ := buildRanks_spec_nodup (msgs.map Prod.fst) order hperm' hnd
  subst hr
  refine ⟨h1, ?_⟩
  rw [h2, hperm.length_eq, List.length_range]

/-- Counterexample to C9 as stated: a run over two items that share one
message id completes, but its rank map is the single entry ("a", 2), whose
values are not the contiguous range 1 .. 2. -/
theorem C9_counterexample :
    handleSeriate [("a", [(1 : ℝ)])] [("a", "x"), ("a", "y")] unusedCall
      = ([("a", [(1 : ℝ)])], .ok [("a", 2)]) ∧
    ¬ (([("a", 2)] : RankMap).map Prod.snd).Perm ((List.range 2).map (· + 1)) :=
  ⟨rfl, by decide⟩

/-- Witness for C9 on a concrete two-message run with distinct cached ids. -/
theorem C9_witness :
    (([("a", 1), ("b", 2)] : RankMap).map Prod.fst).Perm
      (([("a", "x"), ("b", "y")] : List Msg).map Prod.fst) ∧
    (([("a", 1), ("b", 2)] : RankMap).map Prod.snd).Perm
      ((List.range ([("a", "x"), ("b", "y")] : List Msg).length).map (· + 1)) :=
  C9_rank_map [("a", [(1 : ℝ)]), ("b", [(1 : ℝ)])] [("a", "x"), ("b", "y")]
    unusedCall [("a", [(1 : ℝ)]), ("b", [(1 : ℝ)])] [("a", 1), ("b", 2)] rfl (by decide)

lemma getLast?_map {α β : Type} (f : α → β) (l : List α) :
    (l.map f).getLast? = l.getLast?.map f := by
  induction l with
  | nil => rfl
  | cons a l ih =>
    cases l with
    | nil => rfl
    | cons b l' => simpa [List.getLast?_cons_cons] using ih

/-- C10: the ranks object keeps one entry per id, holding the rank assigned
to the occurrence written last; and a completed run whose message ids are not
pairwise distinct produces a rank map with strictly fewer entries than there
are messages (so its values cannot cover 1 .. n, and the contiguous-range
invariant needs the distinct-ids hypothesis). -/
theorem C10_duplicate_ids :
    (∀ (ids : List String) (order : List ℕ) (id : String),
      lookupA (buildRanks ids order) id = lastWrite ids order id) ∧
    (∀ (store : Store) (msgs : List Msg) (call : CallFn) (st : Store) (ranks : RankMap),
      handleSeriate store msgs call = (st, .ok ranks) →
      ¬ (msgs.map Prod.fst).Nodup → ranks.length < msgs.length) := by
  constructor
  · intro ids order id
    rw [buildRanks_eq_foldl, lookupA_foldl_upsert, lastWrite]
    rw [List.filter_map, getLast?_map]
    have hpred : ((fun e : String × ℕ => decide (e.1 = id)) ∘
        fun pr : ℕ × ℕ => (ids.getD pr.2 "", pr.1 + 1))
        = (fun pr : ℕ × ℕ => decide (ids.getD pr.2 "" = id)) := rfl
    rw [hpred]
    cases (order.enum.filter fun pr => ids.getD pr.2 "" = id).getLast? with
    | none => rfl
    | some pr => rfl
  · intro store msgs call st ranks h hdup
    obtain ⟨order, hperm, hr⟩ := handleSeriate_ok store msgs call st ranks h
    have hbd : ∀ x ∈ order, x < msgs.length := fun x hx =>
      List.mem_range.1 (hperm.subset hx)
    have hkeysnd : ((buildRanks (msgs.map Prod.fst) order).map Prod.fst).Nodup := by
      rw [buildRanks_eq_foldl]
      exact keys_foldl_nodup _ [] (by simp)
    have hkeysub : (buildRanks (msgs.map Prod.fst) order).map Prod.fst
        ⊆ msgs.map Prod.fst := by
      intro x hx
      rw [buildRanks_eq_foldl] at hx
      rcases mem_keys_foldl _ [] x hx with hfalse | hmem
      · simp at hfalse
      · rw [writes_keys] at hmem
        obtain ⟨o, ho, hxo⟩ := List.mem_map.1 hmem
        have hor : o < (msgs.map Prod.fst).length := by
          rw [List.length_map]
          exact hbd o ho
        rw [← hxo, List.getD_eq_getElem _ _ hor]
        exact List.getElem_mem hor
    have hlelen : ((buildRanks (msgs.map Prod.fst) order).map Prod.fst).length
        ≤ (msgs.map Prod.fst).length :=
      (hkeysnd.subperm hkeysub).length_le
    have hne : ((buildRanks (msgs.map Prod.fst) order).map Prod.fst).length
        ≠ (msgs.map Prod.fst).length := by
      intro heq
      have hkp := (hkeysnd.subperm hkeysub).perm_of_length_le (le_of_eq heq.symm)
      exact hdup (hkp.nodup_iff.1 hkeysnd)
    rw [hr]
    rw [List.length_map, List.length_map] at hlelen hne
    omega

/-- Witness for C10: the last-write description evaluated on the duplicate-id
scenario, and the strict key deficit of its completed run. -/
theorem C10_witness :
    lookupA (buildRanks ["a", "a"] [0, 1]) "a" = lastWrite ["a", "a"] [0, 1] "a" ∧
    ([("a", 2)] : RankMap).length < ([("a", "x"), ("a", "y")] : List Msg).length :=
  ⟨C10_duplicate_ids.1 ["a", "a"] [0, 1] "a",
   C10_duplicate_ids.2 [("a", [(1 : ℝ)])] [("a", "x"), ("a", "y")] unusedCall
     [("a", [(1 : ℝ)])] [("a", 2)] rfl (by decide)⟩

/-- Counterexample to C1 as stated: with an empty store and 101 messages the
fetch needs two batches; the first batch of 100 completes and the second
fails, yet nothing at all was persisted: the run reports the provider error
and the store still has no entry for the first message of batch 1. -/
theorem C1_counterexample :
    (handleSeriate [] cexMsgs cexCall).2 = .error "OpenAI API error 429: rate limited" ∧
    (handleSeriate [] cexMsgs cexCall).1 = [] ∧
    lookupA (handleSeriate [] cexMsgs cexCall).1 (toString 0) = none :=
  ⟨rfl, rfl, rfl⟩

/-- C1 (amended): the code does not persist per batch; newly fetched
embeddings are written once, after every batch succeeded.  If any batch of a
fetch fails, the whole run fails and the store is left exactly as it was
before the run: earlier batches of the failed fetch are not retrievable. -/
theorem C1_no_progressive_persistence (store : Store) (msgs : List Msg)
    (call : CallFn) (e : String)
    (h : (handleSeriate store msgs call).2 = .error e) :
    (handleSeriate store msgs call).1 = store :=
  handleSeriate_error_store store msgs call e h

/-- Witness for C1 on the two-batch failing scenario. -/
theorem C1_witness : (handleSeriate [] cexMsgs cexCall).1 = [] :=
  C1_no_progressive_persistence [] cexMsgs cexCall
    "OpenAI API error 429: rate limited" rfl

end Seriate
